import Mathlib

/-!
Verification of the scheduling/occupancy engine of the resource planner
(`app.py`).

Shallow embedding conventions:

* Calendar dates are whole days, modeled as `Int` (a day number).  All call
  sites feed midnight timestamps built from pure dates into the engine, so
  `Timestamp.normalize()` is the identity and one `pd.Timedelta` day equals
  one unit.
* DataFrames are lists of records (structures); a missing optional value is
  `Option`.
* Float arithmetic of `compute_utilization` is modeled exactly: the value
  `round(busy / total * 100, 1)` is an integer number of tenths obtained by
  round-half-to-even of `busy * 1000 / total` (numpy rounding), stored as the
  rational `mkRat tenths 10`.
* `DataFrame.sort_values` (single column, default quicksort kind) and
  `groupby(sort=True)` are modeled with a stable insertion sort.  The model
  is exact for results of at most 16 rows, where the numpy quicksort argsort
  runs its pure insertion-sort path; for larger results numpy introsort can
  permute tied elements, so of the modeled order only the permutation of the
  rows and the descending-utilization sortedness are faithful at every size,
  and the only theorem about tie order carries an explicit at-most-16-rows
  hypothesis.
-/

/-! ## Stable insertion sort (model of `sort_values` and of sorted group keys) -/

/-- Insert `a` in front of the first element `b` with `le a b`; later
elements that compare equal to `a` stay behind it, so the sort built from
this insertion is stable. -/
def insertBy {α : Type} (le : α → α → Bool) (a : α) : List α → List α
  | [] => [a]
  | b :: l => if le a b then a :: b :: l else b :: insertBy le a l

/-- Stable insertion sort: elements are inserted from the last towards the
first, so an element placed earlier in the input is inserted later and lands
before the elements it ties with. -/
def sortBy {α : Type} (le : α → α → Bool) : List α → List α
  | [] => []
  | a :: l => insertBy le a (sortBy le l)

theorem mem_insertBy {α : Type} (le : α → α → Bool) (a x : α) :
    ∀ l : List α, x ∈ insertBy le a l ↔ x = a ∨ x ∈ l := by
  intro l
  induction l with
  | nil => simp [insertBy]
  | cons b l ih =>
    by_cases h : le a b = true
    · simp [insertBy, h]
    · simp only [insertBy, if_neg h, List.mem_cons, ih]
      tauto

theorem insertBy_perm {α : Type} (le : α → α → Bool) (a : α) :
    ∀ l : List α, (insertBy le a l).Perm (a :: l) := by
  intro l
  induction l with
  | nil => simp [insertBy]
  | cons b l ih =>
    by_cases h : le a b = true
    · simp [insertBy, h]
    · simp only [insertBy, if_neg h]
      exact (ih.cons b).trans (List.Perm.swap a b l)

theorem sortBy_perm {α : Type} (le : α → α → Bool) :
    ∀ l : List α, (sortBy le l).Perm l := by
  intro l
  induction l with
  | nil => simp [sortBy]
  | cons a l ih =>
    exact (insertBy_perm le a (sortBy le l)).trans (ih.cons a)

theorem pairwise_insertBy {α : Type} (le : α → α → Bool)
    (total : ∀ a b, le a b = true ∨ le b a = true)
    (htrans : ∀ a b c, le a b = true → le b c = true → le a c = true)
    (a : α) :
    ∀ l : List α, l.Pairwise (fun x y => le x y = true) →
      (insertBy le a l).Pairwise (fun x y => le x y = true) := by
  intro l
  induction l with
  | nil => simp [insertBy]
  | cons b l ih =>
    intro hp
    obtain ⟨hb, hl⟩ := List.pairwise_cons.mp hp
    by_cases h : le a b = true
    · simp only [insertBy, if_pos h]
      refine List.Pairwise.cons ?_ hp
      intro x hx
      rcases List.mem_cons.mp hx with rfl | hx
      · exact h
      · exact htrans a b x h (hb x hx)
    · simp only [insertBy, if_neg h]
      refine List.Pairwise.cons ?_ (ih hl)
      intro x hx
      rcases (mem_insertBy le a x l).mp hx with hxa | hx
      · rw [hxa]
        rcases total a b with h' | h'
        · exact absurd h' h
        · exact h'
      · exact hb x hx

theorem pairwise_sortBy {α : Type} (le : α → α → Bool)
    (total : ∀ a b, le a b = true ∨ le b a = true)
    (htrans : ∀ a b c, le a b = true → le b c = true → le a c = true) :
    ∀ l : List α, (sortBy le l).Pairwise (fun x y => le x y = true) := by
  intro l
  induction l with
  | nil => simp [sortBy]
  | cons a l ih => exact pairwise_insertBy le total htrans a (sortBy le l) ih

/-! ## Rounding to one decimal place (numpy round-half-to-even, exact) -/

/-- Round the fraction `a / b` (with `b > 0`) to the nearest integer, ties to
the even neighbour.  `round(x, 1)` of `x = busy / total * 100` is
`roundHalfEvenDiv (busy * 1000) total` tenths. -/
def roundHalfEvenDiv (a b : ℤ) : ℤ :=
  if 2 * (a % b) < b then a / b
  else if b < 2 * (a % b) then a / b + 1
  else if (a / b) % 2 = 0 then a / b else a / b + 1

theorem roundHalfEvenDiv_near (a b : ℤ) (hb : 0 < b) :
    |(roundHalfEvenDiv a b : ℚ) - (a : ℚ) / (b : ℚ)| ≤ 1 / 2 := by
  have hqr : b * (a / b) + a % b = a := Int.ediv_add_emod a b
  have hr0 : 0 ≤ a % b := Int.emod_nonneg a (by omega)
  have hrb : a % b < b := Int.emod_lt_of_pos a hb
  have hbQ : (0 : ℚ) < (b : ℚ) := by exact_mod_cast hb
  have hval : (a : ℚ) / (b : ℚ) = ((a / b : ℤ) : ℚ) + ((a % b : ℤ) : ℚ) / (b : ℚ) := by
    have hcast : ((b : ℤ) : ℚ) * ((a / b : ℤ) : ℚ) + ((a % b : ℤ) : ℚ) = ((a : ℤ) : ℚ) := by
      exact_mod_cast congrArg (fun z : ℤ => (z : ℚ)) hqr
    field_simp
    linarith
  have hrQ : (0 : ℚ) ≤ ((a % b : ℤ) : ℚ) := by exact_mod_cast hr0
  have hrbQ : ((a % b : ℤ) : ℚ) < (b : ℚ) := by exact_mod_cast hrb
  have hfrac0 : 0 ≤ ((a % b : ℤ) : ℚ) / (b : ℚ) := div_nonneg hrQ hbQ.le
  have hfrac1 : ((a % b : ℤ) : ℚ) / (b : ℚ) < 1 := by
    rw [div_lt_one hbQ]; exact hrbQ
  unfold roundHalfEvenDiv
  by_cases h1 : 2 * (a % b) < b
  · have h1Q : 2 * ((a % b : ℤ) : ℚ) < (b : ℚ) := by exact_mod_cast h1
    have hlt : ((a % b : ℤ) : ℚ) / (b : ℚ) < 1 / 2 := by
      rw [div_lt_iff₀ hbQ]
      linarith
    rw [if_pos h1, hval, abs_le]
    constructor
    · linarith
    · linarith
  · rw [if_neg h1]
    by_cases h2 : b < 2 * (a % b)
    · have h2Q : (b : ℚ) < 2 * ((a % b : ℤ) : ℚ) := by exact_mod_cast h2
      have hgt : 1 / 2 < ((a % b : ℤ) : ℚ) / (b : ℚ) := by
        rw [div_lt_div_iff₀ (by norm_num : (0:ℚ) < 2) hbQ]
        linarith
      rw [if_pos h2, hval, abs_le]
      push_cast
      constructor
      · linarith
      · linarith
    · rw [if_neg h2]
      have heqQ : 2 * ((a % b : ℤ) : ℚ) = (b : ℚ) := by
        exact_mod_cast (by omega : 2 * (a % b) = b)
      have hdiv : ((a % b : ℤ) : ℚ) / (b : ℚ) = 1 / 2 := by
        rw [div_eq_div_iff hbQ.ne' (by norm_num : (2:ℚ) ≠ 0)]
        linarith
      by_cases h3 : (a / b) % 2 = 0
      · rw [if_pos h3, hval, hdiv, abs_le]
        constructor
        · linarith
        · linarith
      · rw [if_neg h3, hval, hdiv, abs_le]
        push_cast
        constructor
        · linarith
        · linarith

theorem roundHalfEvenDiv_nonneg (a b : ℤ) (ha : 0 ≤ a) (hb : 0 < b) :
    0 ≤ roundHalfEvenDiv a b := by
  have hq : 0 ≤ a / b := Int.ediv_nonneg ha hb.le
  unfold roundHalfEvenDiv
  split
  · exact hq
  · split
    · omega
    · split
      · exact hq
      · omega

theorem roundHalfEvenDiv_le (a b n : ℤ) (hb : 0 < b) (h : a ≤ n * b) :
    roundHalfEvenDiv a b ≤ n := by
  have hqr : b * (a / b) + a % b = a := Int.ediv_add_emod a b
  have hr0 : 0 ≤ a % b := Int.emod_nonneg a (by omega)
  have hrb : a % b < b := Int.emod_lt_of_pos a hb
  have hqn : a / b ≤ n := by
    by_contra hcon
    push_neg at hcon
    have h1 : n + 1 ≤ a / b := hcon
    have h2 : (n + 1) * b ≤ (a / b) * b :=
      mul_le_mul_of_nonneg_right h1 hb.le
    nlinarith
  have hstrict : b ≤ 2 * (a % b) → a / b + 1 ≤ n := by
    intro hhalf
    by_contra hcon
    push_neg at hcon
    have hval : a / b = n := by omega
    have : b * n + a % b = a := by rw [← hval]; exact hqr
    nlinarith
  unfold roundHalfEvenDiv
  split
  · exact hqn
  · rename_i h1
    split
    · rename_i h2
      exact hstrict (by omega)
    · split
      · exact hqn
      · exact hstrict (by omega)

theorem roundHalfEvenDiv_exact_mul (b n : ℤ) (hb : 0 < b) :
    roundHalfEvenDiv (n * b) b = n := by
  have hq : n * b / b = n := Int.mul_ediv_cancel n (by omega)
  have hr : n * b % b = 0 := Int.mul_emod_left n b
  unfold roundHalfEvenDiv
  rw [hq, hr]
  simp [hb]

/-! ## Data model (tables `resources` and `tasks`, and the joined task frame) -/

/-- A row of the `resources` table. -/
structure Resource where
  id : ℤ
  name : String
  type : String
  color : Option String
  active : Bool
deriving DecidableEq

/-- Composite display label, `res_df["label"] = res_df["type"] + " – " + res_df["name"]`. -/
def label (r : Resource) : String := r.type ++ " – " ++ r.name

/-- A row of the `tasks` table; `start` and `finish` are the calendar dates
`start_date` and `end_date` as day numbers. -/
structure RawTask where
  id : ℤ
  resource_id : ℤ
  title : String
  description : String
  start : ℤ
  finish : ℤ
  status : String
  created_at : String
  updated_at : String
deriving DecidableEq

/-- A row of the frame produced by `fetch_tasks`: a task inner-joined with its
owning resource (`JOIN resources r ON t.resource_id = r.id`), with the parsed
date columns `Start` and `Finish` (fields `start` and `finish`). -/
structure TaskRow where
  id : ℤ
  resource_id : ℤ
  title : String
  description : String
  start : ℤ
  finish : ℤ
  status : String
  resource_name : String
  resource_type : String
  resource_color : Option String
deriving DecidableEq

/-- `fetch_tasks`: SQL inner join of `tasks` with `resources` on
`t.resource_id = r.id` (ids are unique, `resources.id` is the primary key, so
`find?` returns the unique match), ordered by `start_date`. A task whose
`resource_id` matches no resource row produces no output row. -/
def fetch_tasks (resources : List Resource) (tasks : List RawTask) : List TaskRow :=
  sortBy (fun a b => decide (a.start ≤ b.start))
    (tasks.filterMap fun t =>
      (resources.find? fun r => r.id == t.resource_id).map fun r =>
        { id := t.id, resource_id := t.resource_id, title := t.title,
          description := t.description, start := t.start, finish := t.finish,
          status := t.status, resource_name := r.name, resource_type := r.type,
          resource_color := r.color })

/-! ## Calendar Expander (`expand_tasks_to_calendar`) -/

/-- One row of the exploded calendar frame: one resource, one task, one day. -/
structure OccRecord where
  date : ℤ
  resource_id : ℤ
  resource_name : String
  resource_type : String
  status : String
  title : String
deriving DecidableEq

/-- Effective start of a task under an optional clamp window:
`start = max(start, start_filter)` when a bound is supplied (`if start_filter:`
tests for `None`, timestamps are always truthy). -/
def effStart (t : TaskRow) : Option ℤ → ℤ
  | some v => max t.start v
  | none => t.start

/-- Effective end of a task under an optional clamp window:
`end = min(end, end_filter)` when a bound is supplied. -/
def effEnd (t : TaskRow) : Option ℤ → ℤ
  | some v => min t.finish v
  | none => t.finish

/-- The inclusive day enumeration `pd.date_range(start, end, freq="D")` for
whole-day endpoints. -/
def dateRange (s e : ℤ) : List ℤ :=
  (List.range (e + 1 - s).toNat).map fun i : ℕ => s + (i : ℤ)

/-- Loop body of `expand_tasks_to_calendar` for one task row: clamp, skip the
row when `start > end`, otherwise emit one record per day. -/
def expandTask (t : TaskRow) (startFilter endFilter : Option ℤ) : List OccRecord :=
  if effEnd t endFilter < effStart t startFilter then []
  else
    (dateRange (effStart t startFilter) (effEnd t endFilter)).map fun d =>
      { date := d, resource_id := t.resource_id, resource_name := t.resource_name,
        resource_type := t.resource_type, status := t.status, title := t.title }

/-- `expand_tasks_to_calendar`: one row per resource per day within the
window (an empty input frame yields an empty frame). -/
def expand_tasks_to_calendar (tasks : List TaskRow) (startFilter endFilter : Option ℤ) :
    List OccRecord :=
  tasks.flatMap fun t => expandTask t startFilter endFilter

/-! ## Display Orderer (`ordered_resource_labels`) -/

/-- `ordered_resource_labels`: labels of vessels, then projects, then people,
each group in catalog order. -/
def ordered_resource_labels (res : List Resource) : List String :=
  ((res.filter fun r => decide (r.type = "Vessel")).map label) ++
    ((res.filter fun r => decide (r.type = "Project")).map label) ++
      ((res.filter fun r => decide (r.type = "Person")).map label)

/-! ## Utilization Calculator (`compute_utilization`) -/

/-- Grouping key of `calendar_df.groupby(["resource_id", "resource_name",
"resource_type"])`. -/
structure UtilKey where
  resource_id : ℤ
  resource_name : String
  resource_type : String
deriving DecidableEq

def keyOf (rec : OccRecord) : UtilKey :=
  { resource_id := rec.resource_id, resource_name := rec.resource_name,
    resource_type := rec.resource_type }

/-- Lexicographic order on group keys; `groupby(sort=True)` (the default)
emits the groups with their keys in this ascending order. -/
def keyLeB (a b : UtilKey) : Bool :=
  decide (a.resource_id < b.resource_id) ||
    (decide (a.resource_id = b.resource_id) &&
      (decide (a.resource_name < b.resource_name) ||
        (decide (a.resource_name = b.resource_name) &&
          decide (a.resource_type ≤ b.resource_type))))

/-- One output row of `compute_utilization`.  The percentage
`round(busy_days / total_days * 100, 1)` has one decimal digit, stored
exactly as `tenths / 10`. -/
structure UtilRow where
  resource_id : ℤ
  resource_name : String
  resource_type : String
  busy_days : ℕ
  available_days : ℤ
  utilization : ℚ
deriving DecidableEq

def keyOfRow (u : UtilRow) : UtilKey :=
  { resource_id := u.resource_id, resource_name := u.resource_name,
    resource_type := u.resource_type }

/-- Comparison used by `sort_values("utilization", ascending=False)`: row `a`
may stay before row `b` iff its utilization is not smaller.  With the stable
`sortBy` this is exactly the pandas descending sort for the small frames at
hand (`nargsort` reverses, insertion-argsorts, reverses back). -/
def rowLe (a b : UtilRow) : Bool := decide (b.utilization ≤ a.utilization)

/-- The aggregated row of one group: `busy_days` is `date.nunique()` over the
group, `available_days` the window length, `utilization` the rounded
percentage. -/
def mkUtilRow (cal : List OccRecord) (total : ℤ) (k : UtilKey) : UtilRow :=
  { resource_id := k.resource_id, resource_name := k.resource_name,
    resource_type := k.resource_type,
    busy_days := (((cal.filter fun rec => decide (keyOf rec = k)).map OccRecord.date).dedup).length,
    available_days := total,
    utilization :=
      mkRat (roundHalfEvenDiv
        (((((cal.filter fun rec => decide (keyOf rec = k)).map OccRecord.date).dedup).length : ℤ) * 1000)
        total) 10 }

/-- `compute_utilization`: empty input gives an empty frame; a window of
non-positive length gives an empty frame; otherwise group by resource key,
count distinct days, attach the window length and the rounded percentage,
and sort by utilization descending. -/
def compute_utilization (cal : List OccRecord) (ws we : ℤ) : List UtilRow :=
  if cal.isEmpty then []
  else if we - ws + 1 ≤ 0 then []
  else
    sortBy rowLe
      ((sortBy keyLeB (cal.map keyOf).dedup).map (mkUtilRow cal (we - ws + 1)))

/-! ## Overlap Filter (the task mask of `page_schedule`) -/

/-- The filter applied to the joined task frame in `page_schedule`: the left
merge with the (active) resource frame supplies `ResourceLabel` and
`ResourceType`; a task whose resource is not in `res` gets `NaN` there and
`isin` rejects it.  The date mask is the inclusive overlap
`Start <= end_filter AND Finish >= start_filter`. -/
def page_schedule_filter (res : List Resource) (tasks : List TaskRow)
    (selectedTypes selectedRes statusFilter : List String)
    (startFilter endFilter : ℤ) : List TaskRow :=
  tasks.filter fun t =>
    match res.find? fun r => r.id == t.resource_id with
    | none => false
    | some r =>
        decide (r.type ∈ selectedTypes) && decide (label r ∈ selectedRes) &&
          decide (t.status ∈ statusFilter) &&
          decide (t.start ≤ endFilter) && decide (startFilter ≤ t.finish)

/-! ## Basic facts about the embedded operations -/

theorem mem_dateRange (s e d : ℤ) : d ∈ dateRange s e ↔ s ≤ d ∧ d ≤ e := by
  unfold dateRange
  constructor
  · intro h
    obtain ⟨i, hi, hd⟩ := List.mem_map.mp h
    rw [List.mem_range] at hi
    omega
  · rintro ⟨h1, h2⟩
    refine List.mem_map.mpr ⟨(d - s).toNat, ?_, ?_⟩
    · rw [List.mem_range]
      omega
    · omega

theorem length_dateRange (s e : ℤ) : (dateRange s e).length = (e + 1 - s).toNat := by
  unfold dateRange
  rw [List.length_map, List.length_range]

theorem mem_expand (tasks : List TaskRow) (sf ef : Option ℤ) (rec : OccRecord) :
    rec ∈ expand_tasks_to_calendar tasks sf ef ↔
      ∃ t ∈ tasks, rec ∈ expandTask t sf ef := by
  simp [expand_tasks_to_calendar, List.mem_flatMap]

theorem mem_expandTask (t : TaskRow) (sf ef : Option ℤ) (rec : OccRecord)
    (h : rec ∈ expandTask t sf ef) :
    rec.resource_id = t.resource_id ∧ rec.resource_name = t.resource_name ∧
      rec.resource_type = t.resource_type ∧
      effStart t sf ≤ rec.date ∧ rec.date ≤ effEnd t ef := by
  unfold expandTask at h
  by_cases hc : effEnd t ef < effStart t sf
  · rw [if_pos hc] at h
    simp at h
  · rw [if_neg hc] at h
    obtain ⟨d, hd, rfl⟩ := List.mem_map.mp h
    obtain ⟨h1, h2⟩ := (mem_dateRange _ _ d).mp hd
    exact ⟨rfl, rfl, rfl, h1, h2⟩

theorem keyLeB_total : ∀ a b : UtilKey, keyLeB a b = true ∨ keyLeB b a = true := by
  intro a b
  simp only [keyLeB, Bool.or_eq_true, Bool.and_eq_true, decide_eq_true_eq]
  rcases lt_trichotomy a.resource_id b.resource_id with h | h | h
  · exact Or.inl (Or.inl h)
  · rcases lt_trichotomy a.resource_name b.resource_name with hn | hn | hn
    · exact Or.inl (Or.inr ⟨h, Or.inl hn⟩)
    · rcases le_total a.resource_type b.resource_type with ht | ht
      · exact Or.inl (Or.inr ⟨h, Or.inr ⟨hn, ht⟩⟩)
      · exact Or.inr (Or.inr ⟨h.symm, Or.inr ⟨hn.symm, ht⟩⟩)
    · exact Or.inr (Or.inr ⟨h.symm, Or.inl hn⟩)
  · exact Or.inr (Or.inl h)

theorem keyLeB_trans : ∀ a b c : UtilKey,
    keyLeB a b = true → keyLeB b c = true → keyLeB a c = true := by
  intro a b c hab hbc
  simp only [keyLeB, Bool.or_eq_true, Bool.and_eq_true, decide_eq_true_eq] at hab hbc ⊢
  rcases hab with hab | ⟨hid, hab⟩
  · rcases hbc with hbc | ⟨hid', _⟩
    · exact Or.inl (hab.trans hbc)
    · exact Or.inl (hid' ▸ hab)
  · rcases hbc with hbc | ⟨hid', hbc⟩
    · exact Or.inl (hid ▸ hbc)
    · refine Or.inr ⟨hid.trans hid', ?_⟩
      rcases hab with hab | ⟨hn, hab⟩
      · rcases hbc with hbc | ⟨hn', _⟩
        · exact Or.inl (hab.trans hbc)
        · exact Or.inl (hn' ▸ hab)
      · rcases hbc with hbc | ⟨hn', hbc⟩
        · exact Or.inl (hn ▸ hbc)
        · exact Or.inr ⟨hn.trans hn', hab.trans hbc⟩

/-- Strict order on group keys: not larger and different. -/
def keyLt (a b : UtilKey) : Prop := keyLeB a b = true ∧ a ≠ b

theorem pairwise_keyLt_sortKeys (L : List UtilKey) (hN : L.Nodup) :
    (sortBy keyLeB L).Pairwise keyLt := by
  have h1 := pairwise_sortBy keyLeB keyLeB_total keyLeB_trans L
  have h2 : (sortBy keyLeB L).Nodup := ((sortBy_perm keyLeB L).nodup_iff).mpr hN
  exact h1.and h2

theorem compute_utilization_eq (cal : List OccRecord) (ws we : ℤ)
    (hne : ¬ cal.isEmpty = true) (hpos : ¬ we - ws + 1 ≤ 0) :
    compute_utilization cal ws we =
      sortBy rowLe
        ((sortBy keyLeB (cal.map keyOf).dedup).map (mkUtilRow cal (we - ws + 1))) := by
  unfold compute_utilization
  rw [if_neg hne, if_neg hpos]

theorem mem_compute_utilization (cal : List OccRecord) (ws we : ℤ) (r : UtilRow) :
    r ∈ compute_utilization cal ws we ↔
      cal ≠ [] ∧ 0 < we - ws + 1 ∧
        ∃ k ∈ (cal.map keyOf).dedup, r = mkUtilRow cal (we - ws + 1) k := by
  unfold compute_utilization
  by_cases h1 : cal.isEmpty = true
  · rw [if_pos h1]
    have : cal = [] := List.isEmpty_iff.mp h1
    simp [this]
  · rw [if_neg h1]
    by_cases h2 : we - ws + 1 ≤ 0
    · rw [if_pos h2]
      constructor
      · intro h
        exact absurd h (List.not_mem_nil r)
      · rintro ⟨_, hpos, _⟩
        omega
    · rw [if_neg h2]
      rw [(sortBy_perm rowLe _).mem_iff, List.mem_map]
      constructor
      · rintro ⟨k, hk, rfl⟩
        refine ⟨fun hcal => h1 (by simp [hcal]), by omega,
          k, (sortBy_perm keyLeB _).mem_iff.mp hk, rfl⟩
      · rintro ⟨hne', hpos', k, hk, rfl⟩
        exact ⟨k, (sortBy_perm keyLeB _).mem_iff.mpr hk, rfl⟩

theorem keyOfRow_mkUtilRow (cal : List OccRecord) (total : ℤ) (k : UtilKey) :
    keyOfRow (mkUtilRow cal total k) = k := rfl

theorem compute_utilization_keys_perm (cal : List OccRecord) (ws we : ℤ)
    (hne : ¬ cal.isEmpty = true) (hpos : ¬ we - ws + 1 ≤ 0) :
    ((compute_utilization cal ws we).map keyOfRow).Perm (cal.map keyOf).dedup := by
  rw [compute_utilization_eq cal ws we hne hpos]
  have p1 : ((sortBy rowLe
      ((sortBy keyLeB (cal.map keyOf).dedup).map (mkUtilRow cal (we - ws + 1)))).map
        keyOfRow).Perm
      (((sortBy keyLeB (cal.map keyOf).dedup).map (mkUtilRow cal (we - ws + 1))).map
        keyOfRow) :=
    (sortBy_perm rowLe _).map keyOfRow
  have heq : (((sortBy keyLeB (cal.map keyOf).dedup).map (mkUtilRow cal (we - ws + 1))).map
      keyOfRow) = sortBy keyLeB (cal.map keyOf).dedup := by
    rw [List.map_map]
    exact List.map_id _
  rw [heq] at p1
  exact p1.trans (sortBy_perm keyLeB _)

/-- Every record produced by the expander clamped to `[ws, we]` carries a
date inside that window. -/
theorem expand_date_bounds (tasks : List TaskRow) (ws we : ℤ) :
    ∀ rec ∈ expand_tasks_to_calendar tasks (some ws) (some we),
      ws ≤ rec.date ∧ rec.date ≤ we := by
  intro rec h
  obtain ⟨t, _, hrec⟩ := (mem_expand tasks (some ws) (some we) rec).mp h
  obtain ⟨_, _, _, h1, h2⟩ := mem_expandTask t (some ws) (some we) rec hrec
  constructor
  · exact le_trans (le_max_right t.start ws) h1
  · exact le_trans h2 (min_le_right t.finish we)

/-- Distinct in-window days are at most the window length. -/
theorem busy_le_total (cal : List OccRecord) (ws we : ℤ)
    (hdates : ∀ rec ∈ cal, ws ≤ rec.date ∧ rec.date ≤ we) (k : UtilKey) :
    (((cal.filter fun rec => decide (keyOf rec = k)).map OccRecord.date).dedup).length ≤
      (we - ws + 1).toNat := by
  set l := ((cal.filter fun rec => decide (keyOf rec = k)).map OccRecord.date).dedup with hl
  have hnd : l.Nodup := List.nodup_dedup _
  have hsub : l.toFinset ⊆ Finset.Icc ws we := by
    intro d hd
    rw [List.mem_toFinset] at hd
    rw [hl, List.mem_dedup] at hd
    obtain ⟨rec, hrec, hrecd⟩ := List.mem_map.mp hd
    have hb := hdates rec (List.mem_of_mem_filter hrec)
    rw [Finset.mem_Icc]
    rw [← hrecd]
    exact hb
  have hcard := Finset.card_le_card hsub
  rw [List.toFinset_card_of_nodup hnd, Int.card_Icc] at hcard
  omega

/-- When the records of key `k` cover every day of the window, the distinct
day count is exactly the window length. -/
theorem busy_eq_total (cal : List OccRecord) (ws we : ℤ)
    (hdates : ∀ rec ∈ cal, ws ≤ rec.date ∧ rec.date ≤ we) (k : UtilKey)
    (hcover : ∀ d, ws ≤ d → d ≤ we → ∃ rec ∈ cal, keyOf rec = k ∧ rec.date = d) :
    (((cal.filter fun rec => decide (keyOf rec = k)).map OccRecord.date).dedup).length =
      (we - ws + 1).toNat := by
  set l := ((cal.filter fun rec => decide (keyOf rec = k)).map OccRecord.date).dedup with hl
  have hnd : l.Nodup := List.nodup_dedup _
  have hset : l.toFinset = Finset.Icc ws we := by
    apply Finset.ext
    intro d
    rw [List.mem_toFinset, hl, List.mem_dedup, Finset.mem_Icc]
    constructor
    · intro hd
      obtain ⟨rec, hrec, hrecd⟩ := List.mem_map.mp hd
      have hb := hdates rec (List.mem_of_mem_filter hrec)
      rw [← hrecd]
      exact hb
    · rintro ⟨hd1, hd2⟩
      obtain ⟨rec, hrec, hkey, hdate⟩ := hcover d hd1 hd2
      refine List.mem_map.mpr ⟨rec, ?_, hdate⟩
      rw [List.mem_filter]
      exact ⟨hrec, by simp [hkey]⟩
  have := congrArg Finset.card hset
  rw [List.toFinset_card_of_nodup hnd, Int.card_Icc] at this
  omega

/-! ## Tie order of the final utilization sort -/

/-- Relation between an earlier and a later output row of
`compute_utilization`: utilization does not increase, and two tied rows occur
in ascending group-key order. -/
def rowTieLt (a b : UtilRow) : Prop :=
  b.utilization ≤ a.utilization ∧
    (a.utilization = b.utilization → keyLt (keyOfRow a) (keyOfRow b))

theorem pairwise_rowTieLt_insertBy (a : UtilRow) :
    ∀ l : List UtilRow, l.Pairwise rowTieLt →
      (∀ b ∈ l, keyLt (keyOfRow a) (keyOfRow b)) →
      (insertBy rowLe a l).Pairwise rowTieLt := by
  intro l
  induction l with
  | nil =>
    intro _ _
    simp [insertBy]
  | cons b l ih =>
    intro hl ha
    obtain ⟨hb, hl'⟩ := List.pairwise_cons.mp hl
    by_cases h : rowLe a b = true
    · have hab : b.utilization ≤ a.utilization := of_decide_eq_true h
      simp only [insertBy, if_pos h]
      refine List.Pairwise.cons ?_ hl
      intro x hx
      rcases List.mem_cons.mp hx with rfl | hx
      · exact ⟨hab, fun _ => ha x (List.mem_cons_self x l)⟩
      · obtain ⟨hxb, _⟩ := hb x hx
        exact ⟨hxb.trans hab, fun _ => ha x (List.mem_cons_of_mem b hx)⟩
    · have hba : a.utilization < b.utilization := by
        unfold rowLe at h
        exact lt_of_not_le fun hc => h (decide_eq_true hc)
      simp only [insertBy, if_neg h]
      refine List.Pairwise.cons ?_
        (ih hl' fun x hx => ha x (List.mem_cons_of_mem b hx))
      intro x hx
      rcases (mem_insertBy rowLe a x l).mp hx with hxa | hx
      · rw [hxa]
        exact ⟨hba.le, fun heq => absurd heq (ne_of_gt hba)⟩
      · exact hb x hx

theorem pairwise_rowTieLt_sortBy :
    ∀ l : List UtilRow,
      l.Pairwise (fun a b => keyLt (keyOfRow a) (keyOfRow b)) →
      (sortBy rowLe l).Pairwise rowTieLt := by
  intro l
  induction l with
  | nil =>
    intro _
    simp [sortBy]
  | cons a l ih =>
    intro hl
    obtain ⟨ha, hl'⟩ := List.pairwise_cons.mp hl
    refine pairwise_rowTieLt_insertBy a (sortBy rowLe l) (ih hl') ?_
    intro b hb
    exact ha b ((sortBy_perm rowLe l).mem_iff.mp hb)

/-! ## Grouping by type precedence (Display Orderer) -/

/-- Precedence rank of a resource type: vessels, then projects, then people. -/
def typeRank (r : Resource) : ℕ :=
  if r.type = "Vessel" then 0
  else if r.type = "Project" then 1
  else if r.type = "Person" then 2
  else 3

/-- Comparison by type precedence only (names are never compared). -/
def precLe (a b : Resource) : Bool := decide (typeRank a ≤ typeRank b)

theorem typeRank_eq_zero (r : Resource) : typeRank r = 0 ↔ r.type = "Vessel" := by
  unfold typeRank
  split_ifs with h1 h2 h3 <;> simp_all

theorem typeRank_eq_one (r : Resource) : typeRank r = 1 ↔ r.type = "Project" := by
  unfold typeRank
  split_ifs with h1 h2 h3 <;> simp_all

theorem typeRank_eq_two (r : Resource) : typeRank r = 2 ↔ r.type = "Person" := by
  unfold typeRank
  split_ifs with h1 h2 h3 <;> simp_all

theorem typeRank_le_two (r : Resource) :
    typeRank r ≤ 2 ↔ (r.type = "Vessel" ∨ r.type = "Project" ∨ r.type = "Person") := by
  unfold typeRank
  split_ifs with h1 h2 h3 <;> simp_all

theorem insertBy_append_skip {α : Type} (le : α → α → Bool) (a : α) (ys : List α) :
    ∀ xs : List α, (∀ x ∈ xs, le a x = false) →
      insertBy le a (xs ++ ys) = xs ++ insertBy le a ys := by
  intro xs
  induction xs with
  | nil => intro _; rfl
  | cons x xs ih =>
    intro h
    have hx : le a x = false := h x (List.mem_cons_self x xs)
    have ih' := ih fun y hy => h y (List.mem_cons_of_mem x hy)
    simp [insertBy, hx, ih']

theorem insertBy_front {α : Type} (le : α → α → Bool) (a : α) :
    ∀ ys : List α, (∀ y ∈ ys, le a y = true) → insertBy le a ys = a :: ys := by
  intro ys h
  cases ys with
  | nil => rfl
  | cons y l => simp [insertBy, h y (List.mem_cons_self y l)]

theorem sortBy_three_groups :
    ∀ l : List Resource, (∀ x ∈ l, typeRank x ≤ 2) →
      sortBy precLe l =
        (l.filter fun r => decide (typeRank r = 0)) ++
          ((l.filter fun r => decide (typeRank r = 1)) ++
            (l.filter fun r => decide (typeRank r = 2))) := by
  intro l
  induction l with
  | nil => intro _; rfl
  | cons a l ih =>
    intro h
    have ha : typeRank a ≤ 2 := h a (List.mem_cons_self a l)
    have hl : ∀ x ∈ l, typeRank x ≤ 2 := fun x hx => h x (List.mem_cons_of_mem a hx)
    have ihl := ih hl
    have hmem0 : ∀ x ∈ l.filter fun r => decide (typeRank r = 0), typeRank x = 0 :=
      fun x hx => of_decide_eq_true (List.mem_filter.mp hx).2
    have hmem1 : ∀ x ∈ l.filter fun r => decide (typeRank r = 1), typeRank x = 1 :=
      fun x hx => of_decide_eq_true (List.mem_filter.mp hx).2
    have hmem2 : ∀ x ∈ l.filter fun r => decide (typeRank r = 2), typeRank x = 2 :=
      fun x hx => of_decide_eq_true (List.mem_filter.mp hx).2
    show insertBy precLe a (sortBy precLe l) = _
    rw [ihl]
    rcases (by omega : typeRank a = 0 ∨ typeRank a = 1 ∨ typeRank a = 2) with h0 | h1 | h2
    · rw [insertBy_front precLe a _ ?front]
      case front =>
        intro y _
        exact decide_eq_true (by rw [h0]; exact Nat.zero_le _)
      simp [List.filter_cons, h0]
    · rw [insertBy_append_skip precLe a _ _ ?skip0]
      case skip0 =>
        intro x hx
        exact decide_eq_false (by rw [h1, hmem0 x hx]; omega)
      rw [insertBy_front precLe a _ ?front]
      case front =>
        intro y hy
        rcases List.mem_append.mp hy with hy | hy
        · exact decide_eq_true (by rw [h1, hmem1 y hy])
        · exact decide_eq_true (by rw [h1, hmem2 y hy]; omega)
      simp [List.filter_cons, h1]
    · rw [insertBy_append_skip precLe a _ _ ?skip0]
      case skip0 =>
        intro x hx
        exact decide_eq_false (by rw [h2, hmem0 x hx]; omega)
      rw [insertBy_append_skip precLe a _ _ ?skip1]
      case skip1 =>
        intro x hx
        exact decide_eq_false (by rw [h2, hmem1 x hx]; omega)
      rw [insertBy_front precLe a _ ?front]
      case front =>
        intro y hy
        exact decide_eq_true (by rw [h2, hmem2 y hy])
      simp [List.filter_cons, h2]

/-! ## Membership facts for the join and the page filter -/

/-- The row built by the join of one task with its resource. -/
def joinRow (t : RawTask) (r : Resource) : TaskRow :=
  { id := t.id, resource_id := t.resource_id, title := t.title,
    description := t.description, start := t.start, finish := t.finish,
    status := t.status, resource_name := r.name, resource_type := r.type,
    resource_color := r.color }

theorem mem_fetch_tasks (resources : List Resource) (raw : List RawTask) (row : TaskRow) :
    row ∈ fetch_tasks resources raw ↔
      ∃ t ∈ raw, ∃ r, (resources.find? fun r2 => r2.id == t.resource_id) = some r ∧
        row = joinRow t r := by
  unfold fetch_tasks
  rw [(sortBy_perm _ _).mem_iff, List.mem_filterMap]
  constructor
  · rintro ⟨t, ht, hmap⟩
    obtain ⟨r, hr, hrow⟩ := Option.map_eq_some'.mp hmap
    exact ⟨t, ht, r, hr, hrow.symm⟩
  · rintro ⟨t, ht, r, hr, hrow⟩
    refine ⟨t, ht, ?_⟩
    rw [hr, Option.map_some']
    rw [hrow]
    rfl

theorem fetch_tasks_resource_exists (resources : List Resource) (raw : List RawTask) :
    ∀ row ∈ fetch_tasks resources raw, ∃ r ∈ resources, r.id = row.resource_id := by
  intro row hrow
  obtain ⟨t, _, r, hr, hjoin⟩ := (mem_fetch_tasks resources raw row).mp hrow
  refine ⟨r, List.mem_of_find?_eq_some hr, ?_⟩
  have hid : r.id = t.resource_id := by simpa using List.find?_some hr
  rw [hjoin]
  exact hid

/-! ## Concrete fixtures used by the testable scenarios of the spec -/

/-- Day numbers: day `d` of January 2025 is `d`, so 2025-01-01 is `1` and
2025-01-31 is `31`. -/
def auroraTask : TaskRow :=
  { id := 1, resource_id := 1, title := "Cable lay", description := "Laying subsea cables",
    start := 4, finish := 15, status := "In Progress",
    resource_name := "Aurora", resource_type := "Vessel", resource_color := none }

/-- Occupancy of the Aurora scenario, expanded with the clamp window
2025-01-01 .. 2025-01-31. -/
def scenarioCal : List OccRecord := expand_tasks_to_calendar [auroraTask] (some 1) (some 31)

/-- Claim C1: over a window `[ws, we]` with `ws ≤ we`, the Utilization
Calculator returns one row per resource key appearing in the occupancy
records; each row carries the number of distinct days of that resource as
`busy_days`, the window length `(we - ws) + 1` as `available_days`, and as
`utilization` the value `busy_days / available_days * 100` rounded to one
decimal place (stored exactly in tenths; the rounded value differs from the
exact percentage by at most one twentieth).  In particular the single task
2025-01-04 .. 2025-01-15 clamped to January 2025 yields `busy_days = 12` and
utilization `387/10 = 38.7` over `31` available days. -/
theorem c1_utilization_rows :
    (∀ (cal : List OccRecord) (ws we : ℤ), ws ≤ we →
      (((compute_utilization cal ws we).map keyOfRow).Perm (cal.map keyOf).dedup) ∧
      (∀ r ∈ compute_utilization cal ws we,
        r.busy_days =
          (((cal.filter fun rec => decide (keyOf rec = keyOfRow r)).map
            OccRecord.date).dedup).length ∧
        r.available_days = (we - ws) + 1 ∧
        r.utilization =
          mkRat (roundHalfEvenDiv ((r.busy_days : ℤ) * 1000) ((we - ws) + 1)) 10 ∧
        |r.utilization - (r.busy_days : ℚ) / (((we - ws) + 1 : ℤ) : ℚ) * 100| ≤ 1 / 20)) ∧
    ((compute_utilization scenarioCal 1 31).map
        (fun r => (r.resource_name, r.busy_days, r.available_days, r.utilization)) =
      [("Aurora", 12, 31, mkRat 387 10)]) := by
  constructor
  · intro cal ws we hw
    by_cases hemp : cal.isEmpty = true
    · have hnil : cal = [] := List.isEmpty_iff.mp hemp
      subst hnil
      constructor
      · simp [compute_utilization]
      · intro r hr
        simp [compute_utilization] at hr
    · have hpos : ¬ we - ws + 1 ≤ 0 := by omega
      constructor
      · exact compute_utilization_keys_perm cal ws we hemp hpos
      · intro r hr
        obtain ⟨-, -, k, hk, rfl⟩ := (mem_compute_utilization cal ws we r).mp hr
        refine ⟨rfl, rfl, rfl, ?_⟩
        set busy : ℕ :=
          (((cal.filter fun rec => decide (keyOf rec = k)).map OccRecord.date).dedup).length
          with hbusy
        have hfield : (mkUtilRow cal (we - ws + 1) k).busy_days = busy := rfl
        set tq : ℚ := (((we - ws) + 1 : ℤ) : ℚ) with htq
        have hbt : (0 : ℤ) < we - ws + 1 := by omega
        have htotpos : (0 : ℚ) < tq := by rw [htq]; exact_mod_cast hbt
        have htot : tq ≠ 0 := ne_of_gt htotpos
        have hnear : |((roundHalfEvenDiv ((busy : ℤ) * 1000) (we - ws + 1) : ℤ) : ℚ) -
            (busy : ℚ) * 1000 / tq| ≤ 1 / 2 := by
          have h := roundHalfEvenDiv_near ((busy : ℤ) * 1000) (we - ws + 1) hbt
          rw [htq]
          push_cast at h ⊢
          linarith [h]
        have hutil : (mkUtilRow cal (we - ws + 1) k).utilization =
            ((roundHalfEvenDiv ((busy : ℤ) * 1000) (we - ws + 1) : ℤ) : ℚ) / 10 := by
          show (mkRat (roundHalfEvenDiv ((busy : ℤ) * 1000) (we - ws + 1)) 10 : ℚ) = _
          rw [Rat.mkRat_eq_div]
          norm_num
        rw [hutil, hfield]
        have hsplit : (busy : ℚ) / tq * 100 = ((busy : ℚ) * 1000 / tq) / 10 := by
          field_simp
          ring
        rw [hsplit]
        have hdiff :
            ((roundHalfEvenDiv ((busy : ℤ) * 1000) (we - ws + 1) : ℤ) : ℚ) / 10 -
              ((busy : ℚ) * 1000 / tq) / 10 =
            (((roundHalfEvenDiv ((busy : ℤ) * 1000) (we - ws + 1) : ℤ) : ℚ) -
              (busy : ℚ) * 1000 / tq) / 10 := by
          ring
        rw [hdiff, abs_div]
        have h10 : |(10 : ℚ)| = 10 := by norm_num
        rw [h10]
        linarith [hnear]
  · decide

/-- Witness for C1 at the Aurora scenario: window 2025-01-01 .. 2025-01-31. -/
theorem c1_utilization_rows_witness :
    (((compute_utilization scenarioCal 1 31).map keyOfRow).Perm
      (scenarioCal.map keyOf).dedup) ∧
    (∀ r ∈ compute_utilization scenarioCal 1 31,
      r.busy_days =
        (((scenarioCal.filter fun rec => decide (keyOf rec = keyOfRow r)).map
          OccRecord.date).dedup).length ∧
      r.available_days = (31 - 1) + 1 ∧
      r.utilization =
        mkRat (roundHalfEvenDiv ((r.busy_days : ℤ) * 1000) ((31 - 1) + 1)) 10 ∧
      |r.utilization - (r.busy_days : ℚ) / (((31 - 1) + 1 : ℤ) : ℚ) * 100| ≤ 1 / 20) :=
  c1_utilization_rows.1 scenarioCal 1 31 (by norm_num)

/-- Claim C2: a well-formed task (`start ≤ end`) whose interval is fully
inside the clamp window expands to exactly `(end - start) + 1` records, one
per calendar day from `start` to `end` inclusive, with no gaps.  Full
containment is expressed by the clamp leaving both effective bounds
unchanged. -/
theorem c2_expander_full_window :
    ∀ (t : TaskRow) (sf ef : Option ℤ),
      t.start ≤ t.finish →
      effStart t sf = t.start →
      effEnd t ef = t.finish →
      (expand_tasks_to_calendar [t] sf ef).length = (t.finish - t.start).toNat + 1 ∧
      ((expand_tasks_to_calendar [t] sf ef).map OccRecord.date = dateRange t.start t.finish) ∧
      (∀ d : ℤ, d ∈ (expand_tasks_to_calendar [t] sf ef).map OccRecord.date ↔
        (t.start ≤ d ∧ d ≤ t.finish)) := by
  intro t sf ef hse hs hf
  have hexp : expand_tasks_to_calendar [t] sf ef = expandTask t sf ef := by
    unfold expand_tasks_to_calendar
    simp
  have hguard : ¬ effEnd t ef < effStart t sf := by
    rw [hs, hf]
    omega
  have hmk : expandTask t sf ef = (dateRange t.start t.finish).map fun d =>
      { date := d, resource_id := t.resource_id, resource_name := t.resource_name,
        resource_type := t.resource_type, status := t.status, title := t.title } := by
    unfold expandTask
    rw [if_neg hguard, hs, hf]
  have hdates : (expand_tasks_to_calendar [t] sf ef).map OccRecord.date =
      dateRange t.start t.finish := by
    rw [hexp, hmk, List.map_map]
    have hcomp : (OccRecord.date ∘ fun d : ℤ =>
        ({ date := d, resource_id := t.resource_id, resource_name := t.resource_name,
           resource_type := t.resource_type, status := t.status,
           title := t.title } : OccRecord)) = id := rfl
    rw [hcomp, List.map_id]
  refine ⟨?_, hdates, ?_⟩
  · rw [hexp, hmk, List.length_map, length_dateRange]
    omega
  · intro d
    rw [hdates]
    exact mem_dateRange t.start t.finish d

/-- Witness for C2: the Aurora task inside the January window. -/
theorem c2_expander_full_window_witness :
    (expand_tasks_to_calendar [auroraTask] (some 1) (some 31)).length =
      (auroraTask.finish - auroraTask.start).toNat + 1 ∧
    ((expand_tasks_to_calendar [auroraTask] (some 1) (some 31)).map OccRecord.date =
      dateRange auroraTask.start auroraTask.finish) ∧
    (∀ d : ℤ, d ∈ (expand_tasks_to_calendar [auroraTask] (some 1) (some 31)).map
        OccRecord.date ↔ (auroraTask.start ≤ d ∧ d ≤ auroraTask.finish)) :=
  c2_expander_full_window auroraTask (some 1) (some 31) (by decide) (by decide) (by decide)

/-- Resource and task of the overlap scenario of the spec. -/
def c3Resource : Resource :=
  { id := 7, name := "Crew", type := "Person", color := none, active := true }

def c3Task : TaskRow :=
  { id := 2, resource_id := 7, title := "Shift", description := "",
    start := 10, finish := 20, status := "Planned",
    resource_name := "Crew", resource_type := "Person", resource_color := none }

/-- Claim C3: a task passing the categorical filters is kept by the schedule
filter iff `task.start ≤ window_end` and `task.end ≥ window_start` (inclusive
overlap).  In particular the task 2025-01-10 .. 2025-01-20 is included for
the window 2025-01-15 .. 2025-01-25 and expands there to exactly the six
days 15 .. 20. -/
theorem c3_overlap_filter :
    (∀ (res : List Resource) (tasks : List TaskRow)
        (selTypes selRes selStatus : List String) (ws we : ℤ) (t : TaskRow) (r : Resource),
      t ∈ tasks →
      (res.find? fun r2 => r2.id == t.resource_id) = some r →
      r.type ∈ selTypes → label r ∈ selRes → t.status ∈ selStatus →
      (t ∈ page_schedule_filter res tasks selTypes selRes selStatus ws we ↔
        (t.start ≤ we ∧ ws ≤ t.finish))) ∧
    (c3Task ∈ page_schedule_filter [c3Resource] [c3Task] ["Person"] ["Person – Crew"]
      ["Planned"] 15 25) ∧
    ((expand_tasks_to_calendar [c3Task] (some 15) (some 25)).map OccRecord.date =
      [15, 16, 17, 18, 19, 20]) := by
  refine ⟨?_, by decide, by decide⟩
  intro res tasks selTypes selRes selStatus ws we t r ht hfind hty hlb hst
  unfold page_schedule_filter
  simp only [List.mem_filter, hfind, Bool.and_eq_true, decide_eq_true_eq]
  constructor
  · rintro ⟨-, ⟨⟨⟨-, -⟩, hD⟩, hE⟩⟩
    exact ⟨hD, hE⟩
  · rintro ⟨hD, hE⟩
    exact ⟨ht, ⟨⟨⟨hty, hlb⟩, hst⟩, hD⟩, hE⟩

/-- Witness for C3 at the overlap scenario. -/
theorem c3_overlap_filter_witness :
    c3Task ∈ page_schedule_filter [c3Resource] [c3Task] ["Person"] ["Person – Crew"]
        ["Planned"] 15 25 ↔
      (c3Task.start ≤ 25 ∧ 15 ≤ c3Task.finish) :=
  c3_overlap_filter.1 [c3Resource] [c3Task] ["Person"] ["Person – Crew"] ["Planned"]
    15 25 c3Task c3Resource (by decide) (by decide) (by decide) (by decide) (by decide)

/-- Claim C4: a task whose effective interval after clamping is empty (the
task lies outside the clamp window, or the raw task has `start > end`)
contributes zero records, for any window; the expander is total, no error is
raised. -/
theorem c4_skip_empty_interval :
    ∀ (t : TaskRow) (sf ef : Option ℤ),
      effEnd t ef < effStart t sf →
      expandTask t sf ef = [] ∧ expand_tasks_to_calendar [t] sf ef = [] := by
  intro t sf ef h
  have h1 : expandTask t sf ef = [] := by
    unfold expandTask
    rw [if_pos h]
  refine ⟨h1, ?_⟩
  unfold expand_tasks_to_calendar
  simp [h1]

/-- A malformed task: its end date precedes its start date. -/
def malformedTask : TaskRow :=
  { id := 3, resource_id := 1, title := "Broken", description := "",
    start := 5, finish := 3, status := "Planned",
    resource_name := "Aurora", resource_type := "Vessel", resource_color := none }

/-- Witness for C4: the malformed task expands to nothing even without any
clamp window. -/
theorem c4_skip_empty_interval_witness :
    expandTask malformedTask none none = [] ∧
      expand_tasks_to_calendar [malformedTask] none none = [] :=
  c4_skip_empty_interval malformedTask none none (by decide)

/-- Claim C5: a window with `window_end` before `window_start` yields an
empty utilization result (never an exception, never a division), and an
empty occupancy input also yields an empty result. -/
theorem c5_division_safety :
    ∀ (cal : List OccRecord) (ws we : ℤ),
      (we < ws → compute_utilization cal ws we = []) ∧
      compute_utilization [] ws we = [] := by
  intro cal ws we
  constructor
  · intro h
    unfold compute_utilization
    by_cases hemp : cal.isEmpty = true
    · rw [if_pos hemp]
    · rw [if_neg hemp, if_pos (by omega : we - ws + 1 ≤ 0)]
  · rfl

/-- Witness for C5: the Aurora occupancy against the reversed window
2025-01-05 .. 2025-01-03, and the empty input. -/
theorem c5_division_safety_witness :
    compute_utilization scenarioCal 5 3 = [] ∧ compute_utilization [] 5 3 = [] :=
  ⟨(c5_division_safety scenarioCal 5 3).1 (by norm_num),
    (c5_division_safety [] 5 3).2⟩

theorem mkRat_tenths_nonneg (t : ℤ) (h : 0 ≤ t) : 0 ≤ mkRat t 10 := by
  rw [Rat.mkRat_eq_div]
  apply div_nonneg
  · exact_mod_cast h
  · norm_num

theorem mkRat_tenths_le (t : ℤ) (h : t ≤ 1000) : mkRat t 10 ≤ 100 := by
  rw [Rat.mkRat_eq_div]
  rw [div_le_iff₀ (by norm_num : (0:ℚ) < (10:ℕ))]
  have : (t : ℚ) ≤ 1000 := by exact_mod_cast h
  norm_num
  linarith

/-- Claim C6: applied to the output of the Calendar Expander clamped to the
same window `[ws, we]` with `ws ≤ we`, every utilization value lies between
0 and 100; it is exactly 100 for a resource with an occupancy record on
every day of the window; and a resource without occupancy in the window is
absent from the result. -/
theorem c6_utilization_bounds :
    ∀ (tasks : List TaskRow) (ws we : ℤ), ws ≤ we →
      (∀ r ∈ compute_utilization (expand_tasks_to_calendar tasks (some ws) (some we)) ws we,
        0 ≤ r.utilization ∧ r.utilization ≤ 100) ∧
      (∀ r ∈ compute_utilization (expand_tasks_to_calendar tasks (some ws) (some we)) ws we,
        (∀ d : ℤ, ws ≤ d → d ≤ we →
          ∃ rec ∈ expand_tasks_to_calendar tasks (some ws) (some we),
            keyOf rec = keyOfRow r ∧ rec.date = d) →
        r.utilization = 100) ∧
      (∀ k : UtilKey,
        (∀ rec ∈ expand_tasks_to_calendar tasks (some ws) (some we), keyOf rec ≠ k) →
        ∀ r ∈ compute_utilization (expand_tasks_to_calendar tasks (some ws) (some we)) ws we,
          keyOfRow r ≠ k) := by
  intro tasks ws we hw
  have hdates : ∀ rec ∈ expand_tasks_to_calendar tasks (some ws) (some we),
      ws ≤ rec.date ∧ rec.date ≤ we := expand_date_bounds tasks ws we
  have htotpos : (0 : ℤ) < we - ws + 1 := by omega
  refine ⟨?_, ?_, ?_⟩
  · intro r hr
    obtain ⟨-, -, k, hk, rfl⟩ :=
      (mem_compute_utilization (expand_tasks_to_calendar tasks (some ws) (some we)) ws we r).mp hr
    set busy : ℕ :=
      ((((expand_tasks_to_calendar tasks (some ws) (some we)).filter
        fun rec => decide (keyOf rec = k)).map OccRecord.date).dedup).length with hbusy
    constructor
    · exact mkRat_tenths_nonneg _
        (roundHalfEvenDiv_nonneg ((busy : ℤ) * 1000) (we - ws + 1) (by positivity) htotpos)
    · apply mkRat_tenths_le
      apply roundHalfEvenDiv_le _ _ _ htotpos
      have hb : busy ≤ (we - ws + 1).toNat :=
        busy_le_total (expand_tasks_to_calendar tasks (some ws) (some we)) ws we hdates k
      have hbz : (busy : ℤ) ≤ we - ws + 1 := by omega
      nlinarith
  · intro r hr hcov
    obtain ⟨-, -, k, hk, rfl⟩ :=
      (mem_compute_utilization (expand_tasks_to_calendar tasks (some ws) (some we)) ws we r).mp hr
    have hb : ((((expand_tasks_to_calendar tasks (some ws) (some we)).filter
        fun rec => decide (keyOf rec = k)).map OccRecord.date).dedup).length =
        (we - ws + 1).toNat :=
      busy_eq_total (expand_tasks_to_calendar tasks (some ws) (some we)) ws we hdates k hcov
    show mkRat (roundHalfEvenDiv _ _) 10 = 100
    rw [hb]
    have hcast : (((we - ws + 1).toNat : ℤ) * 1000 : ℤ) = 1000 * (we - ws + 1) := by omega
    rw [hcast]
    rw [roundHalfEvenDiv_exact_mul (we - ws + 1) 1000 htotpos]
    decide
  · intro k hnone r hr hkeq
    obtain ⟨-, -, k', hk', rfl⟩ :=
      (mem_compute_utilization (expand_tasks_to_calendar tasks (some ws) (some we)) ws we r).mp hr
    rw [keyOfRow_mkUtilRow] at hkeq
    subst hkeq
    rw [List.mem_dedup] at hk'
    obtain ⟨rec, hrec, hkeyrec⟩ := List.mem_map.mp hk'
    exact hnone rec hrec hkeyrec

/-- Witness for C6 at the Aurora scenario. -/
theorem c6_utilization_bounds_witness :
    (∀ r ∈ compute_utilization (expand_tasks_to_calendar [auroraTask] (some 1) (some 31)) 1 31,
      0 ≤ r.utilization ∧ r.utilization ≤ 100) ∧
    (∀ r ∈ compute_utilization (expand_tasks_to_calendar [auroraTask] (some 1) (some 31)) 1 31,
      (∀ d : ℤ, 1 ≤ d → d ≤ 31 →
        ∃ rec ∈ expand_tasks_to_calendar [auroraTask] (some 1) (some 31),
          keyOf rec = keyOfRow r ∧ rec.date = d) →
      r.utilization = 100) ∧
    (∀ k : UtilKey,
      (∀ rec ∈ expand_tasks_to_calendar [auroraTask] (some 1) (some 31), keyOf rec ≠ k) →
      ∀ r ∈ compute_utilization (expand_tasks_to_calendar [auroraTask] (some 1) (some 31)) 1 31,
        keyOfRow r ≠ k) :=
  c6_utilization_bounds [auroraTask] 1 31 (by norm_num)

/-- Claim C7: the Display Orderer groups the catalog by type in the fixed
precedence Vessel, Project, Person and keeps the catalog relative order
within each group: its output is exactly the stable sort of the catalog
(restricted to the three known types) by type precedence alone, a comparison
that never looks at names.  The spec scenario and a deliberately
non-alphabetical vessel pair confirm the precedence and the absence of any
re-sort by name. -/
theorem c7_display_order :
    (∀ res : List Resource,
      ordered_resource_labels res =
        (sortBy precLe (res.filter fun r => decide (typeRank r ≤ 2))).map label) ∧
    (ordered_resource_labels
        [{ id := 1, name := "Zed", type := "Person", color := none, active := true },
         { id := 2, name := "Alpha", type := "Vessel", color := none, active := true },
         { id := 3, name := "Polaris", type := "Project", color := none, active := true }] =
      ["Vessel – Alpha", "Project – Polaris", "Person – Zed"]) ∧
    (ordered_resource_labels
        [{ id := 1, name := "Beta", type := "Vessel", color := none, active := true },
         { id := 2, name := "Alpha", type := "Vessel", color := none, active := true }] =
      ["Vessel – Beta", "Vessel – Alpha"]) := by
  refine ⟨?_, by decide, by decide⟩
  intro res
  have hmem : ∀ x ∈ res.filter fun r => decide (typeRank r ≤ 2), typeRank x ≤ 2 :=
    fun x hx => of_decide_eq_true (List.mem_filter.mp hx).2
  rw [sortBy_three_groups _ hmem]
  have h0 : (res.filter fun r => decide (typeRank r ≤ 2)).filter
      (fun r => decide (typeRank r = 0)) = res.filter fun r => decide (r.type = "Vessel") := by
    rw [List.filter_filter]
    apply List.filter_congr
    intro x _
    by_cases hx : x.type = "Vessel"
    · have h := (typeRank_eq_zero x).mpr hx
      simp [h, hx]
    · have h : typeRank x ≠ 0 := fun hc => hx ((typeRank_eq_zero x).mp hc)
      simp [h, hx]
  have h1 : (res.filter fun r => decide (typeRank r ≤ 2)).filter
      (fun r => decide (typeRank r = 1)) = res.filter fun r => decide (r.type = "Project") := by
    rw [List.filter_filter]
    apply List.filter_congr
    intro x _
    by_cases hx : x.type = "Project"
    · have h := (typeRank_eq_one x).mpr hx
      simp [h, hx]
    · have h : typeRank x ≠ 1 := fun hc => hx ((typeRank_eq_one x).mp hc)
      simp [h, hx]
  have h2 : (res.filter fun r => decide (typeRank r ≤ 2)).filter
      (fun r => decide (typeRank r = 2)) = res.filter fun r => decide (r.type = "Person") := by
    rw [List.filter_filter]
    apply List.filter_congr
    intro x _
    by_cases hx : x.type = "Person"
    · have h := (typeRank_eq_two x).mpr hx
      simp [h, hx]
    · have h : typeRank x ≠ 2 := fun hc => hx ((typeRank_eq_two x).mp hc)
      simp [h, hx]
  rw [h0, h1, h2]
  unfold ordered_resource_labels
  simp [List.map_append, List.append_assoc]

/-- A raw task whose owning resource id references nothing in the catalog. -/
def danglingRaw : RawTask :=
  { id := 9, resource_id := 99, title := "Ghost", description := "",
    start := 1, finish := 2, status := "Planned", created_at := "", updated_at := "" }

/-- Claim C8: a task whose `resource_id` matches no catalog resource is
silently dropped: appending it to the raw task list leaves the join output
unchanged, and no joined row, filtered row or occupancy record ever carries
that resource id.  All functions involved are total, so nothing is raised. -/
theorem c8_dangling_reference :
    ∀ (res : List Resource) (raw : List RawTask) (rid : ℤ),
      (∀ r ∈ res, r.id ≠ rid) →
      (∀ rt : RawTask, rt.resource_id = rid →
        fetch_tasks res (raw ++ [rt]) = fetch_tasks res raw) ∧
      (∀ row ∈ fetch_tasks res raw, row.resource_id ≠ rid) ∧
      (∀ (selT selR selS : List String) (ws we : ℤ),
        ∀ row ∈ page_schedule_filter res (fetch_tasks res raw) selT selR selS ws we,
          row.resource_id ≠ rid) ∧
      (∀ (selT selR selS : List String) (ws we : ℤ) (cs ce : Option ℤ),
        ∀ rec ∈ expand_tasks_to_calendar
            (page_schedule_filter res (fetch_tasks res raw) selT selR selS ws we) cs ce,
          rec.resource_id ≠ rid) := by
  intro res raw rid hres
  have hmain : ∀ row ∈ fetch_tasks res raw, row.resource_id ≠ rid := by
    intro row hrow heq
    obtain ⟨r, hr, hrid⟩ := fetch_tasks_resource_exists res raw row hrow
    exact hres r hr (by rw [hrid, heq])
  have hfilter : ∀ (selT selR selS : List String) (ws we : ℤ),
      ∀ row ∈ page_schedule_filter res (fetch_tasks res raw) selT selR selS ws we,
        row.resource_id ≠ rid := by
    intro selT selR selS ws we row hrow
    exact hmain row (List.mem_of_mem_filter hrow)
  refine ⟨?_, hmain, hfilter, ?_⟩
  · intro rt hrt
    have hfind : (res.find? fun r2 => r2.id == rt.resource_id) = none := by
      rw [List.find?_eq_none]
      intro x hx
      simp only [beq_iff_eq]
      rw [hrt]
      exact hres x hx
    unfold fetch_tasks
    rw [List.filterMap_append]
    have hnil : List.filterMap (fun t =>
        (res.find? fun r2 => r2.id == t.resource_id).map fun r =>
          ({ id := t.id, resource_id := t.resource_id, title := t.title,
             description := t.description, start := t.start, finish := t.finish,
             status := t.status, resource_name := r.name, resource_type := r.type,
             resource_color := r.color } : TaskRow)) [rt] = [] := by
      simp [List.filterMap_cons, hfind]
    rw [hnil, List.append_nil]
  · intro selT selR selS ws we cs ce rec hrec
    obtain ⟨t, ht, hrt⟩ := (mem_expand _ cs ce rec).mp hrec
    have hid := (mem_expandTask t cs ce rec hrt).1
    rw [hid]
    exact hfilter selT selR selS ws we t ht

/-- Witness for C8: a one-resource catalog and one raw task pointing at the
deleted id 99. -/
theorem c8_dangling_reference_witness :
    (∀ rt : RawTask, rt.resource_id = 99 →
      fetch_tasks [c3Resource] ([danglingRaw] ++ [rt]) = fetch_tasks [c3Resource] [danglingRaw]) ∧
    (∀ row ∈ fetch_tasks [c3Resource] [danglingRaw], row.resource_id ≠ 99) ∧
    (∀ (selT selR selS : List String) (ws we : ℤ),
      ∀ row ∈ page_schedule_filter [c3Resource] (fetch_tasks [c3Resource] [danglingRaw])
          selT selR selS ws we,
        row.resource_id ≠ 99) ∧
    (∀ (selT selR selS : List String) (ws we : ℤ) (cs ce : Option ℤ),
      ∀ rec ∈ expand_tasks_to_calendar
          (page_schedule_filter [c3Resource] (fetch_tasks [c3Resource] [danglingRaw])
            selT selR selS ws we) cs ce,
        rec.resource_id ≠ 99) :=
  c8_dangling_reference [c3Resource] [danglingRaw] 99 (by decide)

/-- Occupancy input whose records arrive in descending resource id order:
both resources are busy on the single window day, so both utilizations tie
at 100. -/
def c9cal : List OccRecord :=
  [{ date := 0, resource_id := 2, resource_name := "B", resource_type := "Person",
     status := "Planned", title := "T2" },
   { date := 0, resource_id := 1, resource_name := "A", resource_type := "Person",
     status := "Planned", title := "T1" }]

/-- Counterexample to claim C9 as stated: in `c9cal` the records of resource
2 precede those of resource 1, both result rows tie at utilization 100, yet
the result lists resource 1 first — the groupby stage orders rows by
ascending resource key before the sort, so ties do not keep the occupancy
input order. -/
theorem c9_counterexample :
    ((compute_utilization c9cal 0 0).map UtilRow.utilization =
      [mkRat 1000 10, mkRat 1000 10]) ∧
    ((compute_utilization c9cal 0 0).map UtilRow.resource_id = [1, 2]) ∧
    (c9cal.map OccRecord.resource_id = [2, 1]) := by
  decide

/-- Claim C9 as amended: the result rows are always sorted by utilization
descending (true of every `sort_values` kind), and rows with equal
utilization do not keep the occupancy input order; for results of at most 16
rows — where the default quicksort argsort of `sort_values` runs its pure
insertion-sort path and is therefore stable — tied rows appear in ascending
group-key order, the order the groupby stage emits.  For larger results the
program's tie order is unspecified (numpy introsort partitioning permutes
tied elements), so no tie-order statement is made there. -/
theorem c9_amended_sort_order :
    ∀ (cal : List OccRecord) (ws we : ℤ),
      ((compute_utilization cal ws we).Pairwise fun a b =>
        b.utilization ≤ a.utilization) ∧
      ((compute_utilization cal ws we).length ≤ 16 →
        (compute_utilization cal ws we).Pairwise rowTieLt) := by
  intro cal ws we
  have hfull : (compute_utilization cal ws we).Pairwise rowTieLt := by
    unfold compute_utilization
    by_cases h1 : cal.isEmpty = true
    · rw [if_pos h1]
      exact List.Pairwise.nil
    · rw [if_neg h1]
      by_cases h2 : we - ws + 1 ≤ 0
      · rw [if_pos h2]
        exact List.Pairwise.nil
      · rw [if_neg h2]
        apply pairwise_rowTieLt_sortBy
        have hkeys : (sortBy keyLeB (cal.map keyOf).dedup).Pairwise keyLt :=
          pairwise_keyLt_sortKeys _ (List.nodup_dedup _)
        rw [List.pairwise_map]
        exact hkeys
  exact ⟨hfull.imp fun h => h.1, fun _ => hfull⟩

/-- Witness for the amended C9 at the two-row tie input: two rows is within
the stable insertion-sort range, so the tie-order conclusion applies. -/
theorem c9_amended_sort_order_witness :
    ((compute_utilization c9cal 0 0).Pairwise fun a b =>
      b.utilization ≤ a.utilization) ∧
    (compute_utilization c9cal 0 0).Pairwise rowTieLt :=
  ⟨(c9_amended_sort_order c9cal 0 0).1,
    (c9_amended_sort_order c9cal 0 0).2 (by decide)⟩

/-- Claim C10: the Display Orderer emits exactly the labels of the resources
whose type is Vessel, Project or Person; any other type is silently omitted,
with no trailing group and no error. -/
theorem c10_unknown_type_omitted :
    (∀ (res : List Resource) (s : String),
      s ∈ ordered_resource_labels res ↔
        ∃ r ∈ res, (r.type = "Vessel" ∨ r.type = "Project" ∨ r.type = "Person") ∧
          s = label r) ∧
    (ordered_resource_labels
        [{ id := 4, name := "Drone X", type := "Drone", color := none, active := true }] =
      []) := by
  refine ⟨?_, by decide⟩
  intro res s
  unfold ordered_resource_labels
  simp only [List.mem_append, List.mem_map, List.mem_filter, decide_eq_true_eq]
  constructor
  · intro h
    rcases h with (⟨r, ⟨hr, hty⟩, rfl⟩ | ⟨r, ⟨hr, hty⟩, rfl⟩) | ⟨r, ⟨hr, hty⟩, rfl⟩
    · exact ⟨r, hr, Or.inl hty, rfl⟩
    · exact ⟨r, hr, Or.inr (Or.inl hty), rfl⟩
    · exact ⟨r, hr, Or.inr (Or.inr hty), rfl⟩
  · rintro ⟨r, hr, hty, rfl⟩
    rcases hty with hty | hty | hty
    · exact Or.inl (Or.inl ⟨r, ⟨hr, hty⟩, rfl⟩)
    · exact Or.inl (Or.inr ⟨r, ⟨hr, hty⟩, rfl⟩)
    · exact Or.inr ⟨r, ⟨hr, hty⟩, rfl⟩
